import Mathlib

/-
Shallow embedding of src/wipekit/anonymization/k_anonymity.py.

A pandas DataFrame is modelled as an ordered list of named columns,
each column an ordered list of cell values.  A cell value is a null
marker (NaN / None), a string, or a number (floats are modelled as
exact rationals).

Modelling decisions for the external collaborators, taken from their
documented behaviour:
- pandas DataFrame.groupby drops every row that has a null in any
  grouping column (dropna=True is the default), so null tuples never
  form groups;
- Series.min() of an empty series is NaN, and (NaN >= k) is False;
- comparisons against a null (df[col] == value) are False;
- sklearn KBinsDiscretizer(strategy=quantile, encode=ordinal): bin
  edges are numpy percentiles of the column at linspace(0,100,n+1)
  with linear interpolation, and the ordinal code of a value v is
  searchsorted(bin_edges[1:-1], v, side=right), i.e. the number of
  inner edges that are <= v.  The collapsing of bins of width below
  1e-8 done by recent sklearn versions is not modelled; it can only
  reduce the number of distinct labels further.
- python float formatting f-string .2f is modelled as exact decimal
  rounding of the rational value to two places.
-/

inductive Val where
  | null : Val
  | str : String → Val
  | num : Rat → Val
deriving DecidableEq

inductive PyError where
  | typeError (msg : String)
  | valueError (msg : String)
deriving DecidableEq

abbrev Table := List (String × List Val)

def colNames (t : Table) : List String := t.map Prod.fst

def getCol : Table → String → List Val
  | [], _ => []
  | p :: t, c => if p.1 = c then p.2 else getCol t c

def setCol (t : Table) (c : String) (v : List Val) : Table :=
  t.map fun p => if p.1 = c then (p.1, v) else p

def nRows : Table → Nat
  | [] => 0
  | p :: _ => p.2.length

def isNull : Val → Bool
  | .null => true
  | _ => false

def getValAt (t : Table) (c : String) (i : Nat) : Val :=
  (getCol t c).getD i Val.null

def tupleAt (t : Table) (qis : List String) (i : Nat) : List Val :=
  qis.map fun c => getValAt t c i

def tuples (t : Table) (qis : List String) : List (List Val) :=
  (List.range (nRows t)).map (tupleAt t qis)

def tupleNonNull (tu : List Val) : Bool := tu.all fun v => !isNull v

/-- pandas df.groupby(quasi_identifiers): the group keys, i.e. the
quasi-identifier tuples of the rows that have no null in any grouping
column (groupby default dropna=True). -/
def nonNullCombos (t : Table) (qis : List String) : List (List Val) :=
  (tuples t qis).filter tupleNonNull

/-- df.groupby(quasi_identifiers).size(): one size per distinct
non-null tuple. -/
def combinationSizes (t : Table) (qis : List String) : List Nat :=
  (nonNullCombos t qis).dedup.map fun tu => (nonNullCombos t qis).count tu

/-- KAnonymity._verify_k_anonymity: combination_counts.min() >= self.k,
with the pandas semantics that the min of an empty series is NaN and
(NaN >= k) is False. -/
def verifyKAnonymity (k : Nat) (t : Table) (qis : List String) : Bool :=
  match (combinationSizes t qis).min? with
  | none => false
  | some m => k ≤ m

/-- pandas elementwise equality (df[col] == value): a null compares
False against everything, including another null. -/
def pyEq : Val → Val → Bool
  | .null, _ => false
  | _, .null => false
  | .str a, .str b => a == b
  | .num a, .num b => a == b
  | _, _ => false

def pyRowEq (a b : List Val) : Bool :=
  a.length == b.length && (a.zip b).all fun p => pyEq p.1 p.2

/-- The rows of combination_counts[combination_counts[count] < k] in
KAnonymity._apply_suppression. -/
def violatingCombos (k : Nat) (t : Table) (qis : List String) : List (List Val) :=
  (nonNullCombos t qis).dedup.filter fun tu => (nonNullCombos t qis).count tu < k

/-- The boolean mask built row by row in KAnonymity._apply_suppression:
a row is masked iff its quasi-identifier tuple equals (by pandas ==)
one of the violating combinations. -/
def suppressMask (k : Nat) (t : Table) (qis : List String) (i : Nat) : Bool :=
  (violatingCombos k t qis).any fun tu => pyRowEq (tupleAt t qis i) tu

/-- result_df.loc[mask, col] = None, position by position. -/
def maskCol (f : Nat → Bool) : Nat → List Val → List Val
  | _, [] => []
  | i, v :: vs => (if f i then Val.null else v) :: maskCol f (i + 1) vs

/-- KAnonymity._apply_suppression. -/
def applySuppression (k : Nat) (t : Table) (qis : List String) : Table :=
  t.map fun p =>
    if p.1 ∈ qis then (p.1, maskCol (suppressMask k t qis) 0 p.2) else p

/-- KAnonymity._anonymize_categorical on one column: Counter based
frequency analysis, values of frequency below k replaced by the label
Other (generalization) or by a null marker (suppression). -/
def anonymizeCategorical (k : Nat) (method : String) (col : List Val) :
    Except PyError (List Val) :=
  if method == "generalization" then
    .ok (if col.any (fun x => col.count x < k) then
           col.map fun x => if col.count x < k then Val.str "Other" else x
         else col)
  else if method == "suppression" then
    .ok (if col.any (fun x => col.count x < k) then
           col.map fun x => if col.count x < k then Val.null else x
         else col)
  else .error (.valueError ("Unsupported categorical anonymization method: " ++ method))

/-- The list slices sorted_values[i:i+k] for i in range(0, len, k),
written with fuel so that the kernel can evaluate it. -/
def chunksAux (k : Nat) : Nat → List Rat → List (List Rat)
  | 0, _ => []
  | _, [] => []
  | fuel + 1, l => l.take k :: chunksAux k fuel (l.drop k)

def pyChunks (k : Nat) (l : List Rat) : List (List Rat) :=
  chunksAux k l.length l

def pyMean (g : List Rat) : Rat := g.sum / (g.length : Rat)

/-- python sorted(): stable ascending sort. -/
def sortAsc (l : List Rat) : List Rat := l.insertionSort (· ≤ ·)

/-- The dict value_to_mean built in _anonymize_numerical: each value of
each group is assigned the mean of the group, and a later insertion for
the same value overwrites an earlier one. -/
def microPairs (k : Nat) (col : List Rat) : List (Rat × Rat) :=
  ((pyChunks k (sortAsc col)).map fun g => g.map fun v => (v, pyMean g)).flatten

def microLookup (k : Nat) (col : List Rat) (v : Rat) : Rat :=
  ((microPairs k col).reverse.lookup v).getD 0

/-- The microaggregation branch of KAnonymity._anonymize_numerical:
df[column].map(value_to_mean). -/
def microaggregate (k : Nat) (col : List Rat) : List Rat :=
  col.map (microLookup k col)

/-- numpy linear interpolation at a fractional rank over a sorted list. -/
def interpSorted (s : List Rat) (r : Rat) : Rat :=
  let i : Nat := (Int.floor r).toNat
  let lo := s.getD i 0
  let hi := s.getD (i + 1) lo
  lo + (r - ((Int.floor r : Int) : Rat)) * (hi - lo)

/-- np.percentile(l, p) with the default linear interpolation. -/
def npPercentile (l : List Rat) (p : Rat) : Rat :=
  interpSorted (sortAsc l) (p * ((l.length : Rat) - 1) / 100)

/-- The bin edges computed by KBinsDiscretizer(strategy=quantile):
percentiles at linspace(0, 100, n+1). -/
def binEdges (n : Nat) (col : List Rat) : List Rat :=
  (List.range (n + 1)).map fun (j : Nat) => npPercentile col (100 * (j : Rat) / (n : Rat))

/-- python f-string .2f formatting, modelled as exact decimal rounding. -/
def fmtTwo (q : Rat) : String :=
  let c : Int := round (q * 100)
  let a : Nat := c.natAbs
  (if c < 0 then "-" else "") ++ toString (a / 100) ++ "." ++
    (if a % 100 < 10 then "0" ++ toString (a % 100) else toString (a % 100))

/-- bin_labels in _anonymize_numerical. -/
def binLabels (edges : List Rat) : List String :=
  (List.range (edges.length - 1)).map fun i =>
    fmtTwo (edges.getD i 0) ++ "-" ++ fmtTwo (edges.getD (i + 1) 0)

def innerEdges (edges : List Rat) : List Rat := (edges.drop 1).dropLast

/-- The ordinal code assigned by KBinsDiscretizer.transform:
searchsorted(bin_edges[1:-1], v, side=right). -/
def binIndex (edges : List Rat) (v : Rat) : Nat :=
  (innerEdges edges).countP fun e => e ≤ v

/-- The binning branch of KAnonymity._anonymize_numerical. -/
def binColumn (n : Nat) (col : List Rat) : List String :=
  col.map fun v => (binLabels (binEdges n col)).getD (binIndex (binEdges n col) v) ""

def toRat : Val → Rat
  | .num q => q
  | _ => 0

/-- KAnonymity._anonymize_numerical on one column.  The binning branch
constructs KBinsDiscretizer(n_bins=bin_count), whose fit validates
n_bins and raises ValueError when bin_count < 2. -/
def anonymizeNumerical (k : Nat) (method : String) (binCount : Nat)
    (col : List Rat) : Except PyError (List Val) :=
  if method == "binning" then
    if binCount < 2 then
      .error (.valueError ("KBinsDiscretizer received an invalid number of bins. Received "
        ++ toString binCount ++ ", expected at least 2."))
    else .ok ((binColumn binCount col).map Val.str)
  else if method == "microaggregation" then .ok ((microaggregate k col).map Val.num)
  else .error (.valueError ("Unsupported numerical anonymization method: " ++ method))

/-- pd.api.types.is_numeric_dtype of a column, as pandas infers it from
the stored values. -/
def isNumericCol (col : List Val) : Bool :=
  col.all fun v => match v with | .num _ => true | _ => false

/-- One iteration of the per-column loop in KAnonymity.anonymize. -/
def transformColumn (k : Nat) (cm nm : String) (bc : Nat) (t : Table) (c : String) :
    Except PyError Table := do
  if isNumericCol (getCol t c) then
    let newcol ← anonymizeNumerical k nm bc ((getCol t c).map toRat)
    return setCol t c newcol
  else
    let newcol ← anonymizeCategorical k cm (getCol t c)
    return setCol t c newcol

/-- KAnonymity.anonymize: validation, per-column transform in list
order, verification, optional suppression repair. -/
def anonymize (k : Nat) (t : Table) (qis : List String)
    (cm nm : String) (bc : Nat) : Except PyError Table :=
  if !(qis.all fun c => (colNames t).contains c) then
    .error (.valueError "All quasi-identifiers must be columns in the DataFrame")
  else do
    let t2 ← qis.foldlM (transformColumn k cm nm bc) t
    if verifyKAnonymity k t2 qis then return t2
    else return applySuppression k t2 qis

def numsOf (col : List Val) : List Rat :=
  col.filterMap fun v => match v with | .num q => some q | _ => none

structure LossMetrics where
  suppressionRates : List (String × Rat)
  overallSuppressionRate : Rat
  avgGeneralization : List (String × Rat)
  ecCount : Nat
  avgEcSize : Rat
deriving DecidableEq

/-- KAnonymity.evaluate_information_loss.  Divisions by zero (which in
the python would raise or give NaN) take the Lean junk value 0; the
theorems about this function carry the corresponding hypotheses. -/
def evaluateInformationLoss (orig anon : Table) (qis : List String) : LossMetrics :=
  let n : Rat := (nRows anon : Rat)
  { suppressionRates :=
      qis.map fun c => (c, ((getCol anon c).countP isNull : Rat) / n * 100)
    overallSuppressionRate :=
      (((qis.map fun c => (getCol anon c).countP isNull).sum : Nat) : Rat) /
        (n * (qis.length : Rat)) * 100
    avgGeneralization :=
      (qis.filter fun c =>
          isNumericCol (getCol orig c) && !isNumericCol (getCol anon c)).map
        fun c =>
          (c, ((numsOf (getCol orig c)).max?.getD 0 -
               (numsOf (getCol orig c)).min?.getD 0) /
              ((((getCol anon c).filter (fun v => !isNull v)).dedup.length : Nat) : Rat))
    ecCount := (combinationSizes anon qis).length
    avgEcSize := (((combinationSizes anon qis).sum : Nat) : Rat) /
      (((combinationSizes anon qis).length : Nat) : Rat) }

inductive PyKArg where
  | int (i : Int)
  | other

/-- KAnonymity.__init__: not isinstance(k, int) or k < 2 raises, else
the value is stored unchanged. -/
def KAnonymity.init : PyKArg → Except PyError Int
  | .int i =>
    if i < 2 then .error (.valueError "k must be an integer greater than or equal to 2")
    else .ok i
  | .other => .error (.valueError "k must be an integer greater than or equal to 2")

/-- Rendering of the verifier as claim C2 words it: group rows by the
tuple of their values across all quasi-identifier columns, tuples
containing the null marker forming groups like any other; true iff the
minimum group size is at least k, with the empty table trivially true.
Kept only to compare against the source translation verifyKAnonymity. -/
def specVerify (k : Nat) (t : Table) (qis : List String) : Bool :=
  (tuples t qis).all fun tu => k ≤ (tuples t qis).count tu

/-- Equivalence-class count as claim C10 words it: null-containing
tuples counted as groups.  Kept only to compare against the source
translation. -/
def specEcCount (t : Table) (qis : List String) : Nat :=
  (tuples t qis).dedup.length

/-- The property claimed by C1, stated verbatim over the embedding:
either every quasi-identifier tuple occurring in the result has
multiplicity at least k, or every row whose tuple has multiplicity
below k has all its quasi-identifier columns set to the null marker. -/
def claimC1Holds (k : Nat) (out : Table) (qis : List String) : Prop :=
  (∀ tu ∈ tuples out qis, k ≤ (tuples out qis).count tu) ∨
  (∀ i < nRows out, (tuples out qis).count (tupleAt out qis i) < k →
    ∀ c ∈ qis, getValAt out c i = Val.null)

instance {ε α : Type} [DecidableEq ε] [DecidableEq α] : DecidableEq (Except ε α) := fun a b =>
  match a, b with
  | .ok x, .ok y => decidable_of_iff (x = y) (by simp)
  | .error x, .error y => decidable_of_iff (x = y) (by simp)
  | .ok _, .error _ => isFalse (by simp)
  | .error _, .ok _ => isFalse (by simp)

instance (k : Nat) (out : Table) (qis : List String) : Decidable (claimC1Holds k out qis) := by
  unfold claimC1Holds
  exact inferInstance

/- ### Basic table lemmas -/

lemma getCol_cons (p : String × List Val) (t : Table) (c : String) :
    getCol (p :: t) c = if p.1 = c then p.2 else getCol t c := rfl

lemma setCol_cons (p : String × List Val) (t : Table) (c : String) (v : List Val) :
    setCol (p :: t) c v = (if p.1 = c then (p.1, v) else p) :: setCol t c v := rfl

lemma mem_colNames_cons {p : String × List Val} {t : Table} {c : String} :
    c ∈ colNames (p :: t) ↔ c = p.1 ∨ c ∈ colNames t := by
  simp [colNames, eq_comm]

lemma getCol_eq_nil_of_not_mem {t : Table} {c : String} (h : c ∉ colNames t) :
    getCol t c = [] := by
  induction t with
  | nil => rfl
  | cons p t ih =>
    rw [mem_colNames_cons, not_or] at h
    rw [getCol_cons, if_neg (fun he => h.1 he.symm)]
    exact ih h.2

lemma colNames_setCol (t : Table) (c : String) (v : List Val) :
    colNames (setCol t c v) = colNames t := by
  induction t with
  | nil => rfl
  | cons p t ih =>
    by_cases hp : p.1 = c <;>
      simp only [setCol_cons, if_pos, if_neg, hp, colNames, List.map_cons] at * <;>
      simp [ih, colNames]

lemma getCol_setCol_ne {t : Table} {c c2 : String} {v : List Val} (h : c2 ≠ c) :
    getCol (setCol t c v) c2 = getCol t c2 := by
  induction t with
  | nil => rfl
  | cons p t ih =>
    rw [setCol_cons]
    by_cases hp : p.1 = c
    · have h2 : ¬ p.1 = c2 := fun he => h (he.symm.trans hp)
      rw [getCol_cons, getCol_cons]
      simp only [if_pos hp]
      rw [if_neg h2, if_neg h2]
      exact ih
    · rw [if_neg hp, getCol_cons, getCol_cons]
      by_cases h3 : p.1 = c2
      · rw [if_pos h3, if_pos h3]
      · rw [if_neg h3, if_neg h3]
        exact ih

lemma getCol_setCol_self (t : Table) (c : String) (v : List Val) :
    getCol (setCol t c v) c = if c ∈ colNames t then v else [] := by
  induction t with
  | nil => rfl
  | cons p t ih =>
    rw [setCol_cons]
    by_cases hp : p.1 = c
    · rw [getCol_cons]
      simp only [if_pos hp]
      have : c ∈ colNames (p :: t) := mem_colNames_cons.mpr (Or.inl hp.symm)
      rw [if_pos this]
    · rw [getCol_cons, if_neg hp, if_neg hp, ih]
      by_cases hm : c ∈ colNames t
      · rw [if_pos hm, if_pos (mem_colNames_cons.mpr (Or.inr hm))]
      · rw [if_neg hm, if_neg (fun hc => by
          rcases mem_colNames_cons.mp hc with h1 | h2
          · exact hp h1.symm
          · exact hm h2)]

lemma nRows_eq_head_len (t : Table) :
    nRows t = (getCol t ((colNames t).headD "")).length := by
  cases t with
  | nil => rfl
  | cons p t => simp [nRows, colNames, getCol_cons]

/- ### Grouping and verification lemmas -/

lemma count_nonNullCombos {t : Table} {qis : List String} {tu : List Val}
    (h : tupleNonNull tu = true) :
    (nonNullCombos t qis).count tu = (tuples t qis).count tu :=
  List.count_filter h

lemma min?_ge_iff (l : List Nat) (k : Nat) :
    (match l.min? with
     | none => false
     | some m => decide (k ≤ m)) = true ↔ l ≠ [] ∧ ∀ x ∈ l, k ≤ x := by
  cases h : l.min? with
  | none =>
    simp only [List.min?_eq_none_iff] at h
    simp [h]
  | some m =>
    have hm := (List.min?_eq_some_iff (fun a => le_refl a) (fun a b => min_choice a b)
      (fun a b c => le_min_iff)).mp h
    have hne : l ≠ [] := fun he => by simp [he] at hm
    simp only [decide_eq_true_eq]
    constructor
    · exact fun hk => ⟨hne, fun x hx => le_trans hk (hm.2 x hx)⟩
    · exact fun ⟨_, hall⟩ => hall m hm.1

lemma verify_iff (k : Nat) (t : Table) (qis : List String) :
    verifyKAnonymity k t qis = true ↔
      nonNullCombos t qis ≠ [] ∧
      ∀ tu ∈ nonNullCombos t qis, k ≤ (nonNullCombos t qis).count tu := by
  unfold verifyKAnonymity
  rw [min?_ge_iff]
  constructor
  · rintro ⟨hne, hall⟩
    refine ⟨?_, fun tu htu => hall _ ?_⟩
    · intro he
      simp [combinationSizes, he] at hne
    · exact List.mem_map_of_mem _ (List.mem_dedup.mpr htu)
  · rintro ⟨hne, hall⟩
    constructor
    · intro he
      simp only [combinationSizes, List.map_eq_nil_iff, List.dedup_eq_nil] at he
      exact hne he
    · intro x hx
      simp only [combinationSizes, List.mem_map] at hx
      obtain ⟨tu, htu, rfl⟩ := hx
      exact hall tu (List.mem_dedup.mp htu)

/- ### pandas equality lemmas -/

lemma pyEq_iff {a b : Val} (h : isNull a = false) : pyEq a b = true ↔ a = b := by
  cases a <;> cases b <;> simp_all [pyEq, isNull]

lemma pyRowEq_iff {a : List Val} (h : tupleNonNull a = true) (b : List Val) :
    pyRowEq a b = true ↔ a = b := by
  induction a generalizing b with
  | nil => cases b <;> simp [pyRowEq]
  | cons x xs ih =>
    simp only [tupleNonNull, List.all_cons, Bool.and_eq_true, Bool.not_eq_true'] at h
    cases b with
    | nil => simp [pyRowEq]
    | cons y ys =>
      have ihy := ih (show tupleNonNull xs = true from h.2) ys
      simp only [pyRowEq, List.zip_cons_cons, List.all_cons, Bool.and_eq_true,
        beq_iff_eq, List.length_cons, Nat.add_right_cancel_iff] at ihy ⊢
      rw [List.cons_eq_cons]
      constructor
      · rintro ⟨hlen, hxy, hall⟩
        exact ⟨(pyEq_iff h.1).mp hxy, ihy.mp ⟨hlen, hall⟩⟩
      · rintro ⟨hxy, hrest⟩
        obtain ⟨hlen, hall⟩ := ihy.mpr hrest
        exact ⟨hlen, (pyEq_iff h.1).mpr hxy, hall⟩

lemma pyRowEq_false_of_null {a : List Val} (h : tupleNonNull a = false) (b : List Val) :
    pyRowEq a b = false := by
  induction a generalizing b with
  | nil => simp [tupleNonNull] at h
  | cons x xs ih =>
    simp only [tupleNonNull, List.all_cons, Bool.and_eq_false_iff,
      Bool.not_eq_false'] at h
    cases b with
    | nil => rfl
    | cons y ys =>
      rcases h with hx | hxs
      · have hxn : x = Val.null := by cases x <;> simp_all [isNull]
        subst hxn
        simp [pyRowEq, List.zip_cons_cons, pyEq]
      · have hr := ih hxs ys
        simp only [pyRowEq, List.zip_cons_cons, List.all_cons, List.length_cons,
          Bool.and_eq_false_iff] at hr ⊢
        rcases hr with hlen | hall
        · left
          simpa using hlen
        · right
          simp [hall]

/- ### Suppression lemmas -/

/-- applySuppression with the mask f abstracted, for induction. -/
def suppressWith (f : Nat → Bool) (qis : List String) : Table → Table
  | [] => []
  | p :: t => (if p.1 ∈ qis then (p.1, maskCol f 0 p.2) else p) :: suppressWith f qis t

lemma applySuppression_eq (k : Nat) (t : Table) (qis : List String) :
    applySuppression k t qis = suppressWith (suppressMask k t qis) qis t := by
  unfold applySuppression
  generalize suppressMask k t qis = f
  induction t with
  | nil => rfl
  | cons p t ih => simp [suppressWith, ih]

lemma maskCol_length (f : Nat → Bool) (l : List Val) :
    ∀ i, (maskCol f i l).length = l.length := by
  induction l with
  | nil => intro i; rfl
  | cons v vs ih => intro i; simp [maskCol, ih]

lemma maskCol_getElem? (f : Nat → Bool) (l : List Val) :
    ∀ i j, (maskCol f i l)[j]? = l[j]?.map (fun v => if f (i + j) then Val.null else v) := by
  induction l with
  | nil => intros; rfl
  | cons v vs ih =>
    intro i j
    cases j with
    | zero => simp [maskCol]
    | succ j =>
      have := ih (i + 1) j
      simp only [maskCol, List.getElem?_cons_succ, this]
      have harith : i + 1 + j = i + (j + 1) := by omega
      rw [harith]

lemma colNames_suppressWith (f : Nat → Bool) (qis : List String) (t : Table) :
    colNames (suppressWith f qis t) = colNames t := by
  induction t with
  | nil => rfl
  | cons p t ih =>
    show colNames ((if p.1 ∈ qis then (p.1, maskCol f 0 p.2) else p) :: suppressWith f qis t) = _
    by_cases hp : p.1 ∈ qis
    · rw [if_pos hp]
      show p.1 :: colNames (suppressWith f qis t) = p.1 :: colNames t
      rw [ih]
    · rw [if_neg hp]
      show p.1 :: colNames (suppressWith f qis t) = p.1 :: colNames t
      rw [ih]

lemma getCol_suppressWith (f : Nat → Bool) (qis : List String) (t : Table) (c : String) :
    getCol (suppressWith f qis t) c =
      if c ∈ qis then maskCol f 0 (getCol t c) else getCol t c := by
  induction t with
  | nil =>
    show ([] : List Val) = if c ∈ qis then maskCol f 0 [] else []
    split <;> rfl
  | cons p t ih =>
    show getCol ((if p.1 ∈ qis then (p.1, maskCol f 0 p.2) else p) :: suppressWith f qis t) c = _
    by_cases hp : p.1 ∈ qis
    · rw [if_pos hp, getCol_cons]
      by_cases hc : p.1 = c
      · have hcq : c ∈ qis := hc ▸ hp
        rw [if_pos hc, getCol_cons, if_pos hcq, if_pos hc]
      · rw [if_neg hc, ih, getCol_cons, if_neg hc]
    · rw [if_neg hp, getCol_cons]
      by_cases hc : p.1 = c
      · have hcq : c ∉ qis := fun hm => hp (hc ▸ hm)
        rw [if_pos hc, getCol_cons, if_neg hcq, if_pos hc]
      · rw [if_neg hc, ih, getCol_cons, if_neg hc]

lemma nRows_suppressWith (f : Nat → Bool) (qis : List String) (t : Table) :
    nRows (suppressWith f qis t) = nRows t := by
  cases t with
  | nil => rfl
  | cons p t =>
    show nRows ((if p.1 ∈ qis then (p.1, maskCol f 0 p.2) else p) :: _) = _
    by_cases hp : p.1 ∈ qis
    · rw [if_pos hp]
      show (maskCol f 0 p.2).length = p.2.length
      exact maskCol_length f p.2 0
    · rw [if_neg hp]
      rfl

lemma getValAt_suppressWith {f : Nat → Bool} {qis : List String} {c : String}
    (hc : c ∈ qis) (t : Table) (i : Nat) :
    getValAt (suppressWith f qis t) c i = if f i then Val.null else getValAt t c i := by
  unfold getValAt
  rw [getCol_suppressWith, if_pos hc, List.getD_eq_getElem?_getD,
    List.getD_eq_getElem?_getD, maskCol_getElem?]
  cases h : (getCol t c)[i]? with
  | none => simp
  | some v => simp

lemma tupleAt_suppressWith (f : Nat → Bool) (qis : List String) (t : Table) (i : Nat) :
    tupleAt (suppressWith f qis t) qis i =
      if f i then qis.map (fun _ => Val.null) else tupleAt t qis i := by
  unfold tupleAt
  by_cases hf : f i
  · rw [if_pos hf]
    refine List.map_congr_left fun c hc => ?_
    rw [getValAt_suppressWith hc, if_pos hf]
  · rw [if_neg hf]
    refine List.map_congr_left fun c hc => ?_
    rw [getValAt_suppressWith hc, if_neg hf]

lemma tupleNonNull_const_null {qis : List String} (hq : qis ≠ []) :
    tupleNonNull (qis.map fun _ => Val.null) = false := by
  cases qis with
  | nil => exact absurd rfl hq
  | cons q qs => simp [tupleNonNull, isNull]

/-- Core property of the suppression repair: in the repaired table,
every row whose quasi-identifier tuple is fully non-null belongs to an
equivalence class of size at least k. -/
lemma suppression_nonnull_count (k : Nat) (t : Table) (qis : List String) (hq : qis ≠ [])
    {i : Nat} (hi : i < nRows (applySuppression k t qis))
    (hnn : tupleNonNull (tupleAt (applySuppression k t qis) qis i) = true) :
    k ≤ (tuples (applySuppression k t qis) qis).count
        (tupleAt (applySuppression k t qis) qis i) := by
  rw [applySuppression_eq] at hi hnn ⊢
  set f := suppressMask k t qis with hfdef
  rw [nRows_suppressWith] at hi
  rw [tupleAt_suppressWith] at hnn ⊢
  by_cases hf : f i
  · rw [if_pos hf, tupleNonNull_const_null hq] at hnn
    exact absurd hnn (by simp)
  · rw [if_neg hf] at hnn ⊢
    have htu_mem : tupleAt t qis i ∈ nonNullCombos t qis := by
      refine List.mem_filter.mpr ⟨?_, hnn⟩
      exact List.mem_map_of_mem _ (List.mem_range.mpr hi)
    have hnv : tupleAt t qis i ∉ violatingCombos k t qis := by
      intro hv
      apply hf
      show suppressMask k t qis i = true
      unfold suppressMask
      rw [List.any_eq_true]
      exact ⟨tupleAt t qis i, hv, (pyRowEq_iff hnn _).mpr rfl⟩
    have hk : k ≤ (nonNullCombos t qis).count (tupleAt t qis i) := by
      by_contra hlt
      push_neg at hlt
      exact hnv (List.mem_filter.mpr ⟨List.mem_dedup.mpr htu_mem, by simpa using hlt⟩)
    have hcount : (tuples (suppressWith f qis t) qis).count (tupleAt t qis i) =
        (tuples t qis).count (tupleAt t qis i) := by
      unfold tuples
      rw [nRows_suppressWith, List.count_eq_countP, List.count_eq_countP,
        List.countP_map, List.countP_map]
      refine List.countP_congr fun j hj => ?_
      simp only [Function.comp_apply]
      rw [tupleAt_suppressWith]
      by_cases hfj : f j
      · rw [if_pos hfj]
        have h1 : ((qis.map fun _ => Val.null) == tupleAt t qis i) = false := by
          rw [beq_eq_false_iff_ne]
          intro he
          rw [← he, tupleNonNull_const_null hq] at hnn
          simp at hnn
        have h2 : (tupleAt t qis j == tupleAt t qis i) = false := by
          rw [beq_eq_false_iff_ne]
          intro he
          have hji : f j = f i := by
            show suppressMask k t qis j = suppressMask k t qis i
            unfold suppressMask
            rw [he]
          rw [hji] at hfj
          exact hf hfj
        rw [h1, h2]
      · rw [if_neg hfj]
    rw [hcount, ← count_nonNullCombos hnn]
    exact hk

/- ### Transform shape lemmas -/

lemma anonymizeCategorical_length {k : Nat} {m : String} {col out : List Val}
    (h : anonymizeCategorical k m col = .ok out) : out.length = col.length := by
  unfold anonymizeCategorical at h
  split_ifs at h <;> simp only [Except.ok.injEq] at h <;> subst h <;> simp

lemma binColumn_length (n : Nat) (col : List Rat) :
    (binColumn n col).length = col.length := by
  unfold binColumn
  simp

lemma microaggregate_length (k : Nat) (col : List Rat) :
    (microaggregate k col).length = col.length := by
  unfold microaggregate
  simp

lemma anonymizeNumerical_length {k : Nat} {m : String} {bc : Nat} {col : List Rat}
    {out : List Val} (h : anonymizeNumerical k m bc col = .ok out) :
    out.length = col.length := by
  unfold anonymizeNumerical at h
  split_ifs at h
  all_goals
    first
      | (injection h with h2
         subst h2
         simp [binColumn_length, microaggregate_length])
      | injection h

lemma transformColumn_shape {k : Nat} {cm nm : String} {bc : Nat} {t t2 : Table}
    {c : String} (h : transformColumn k cm nm bc t c = .ok t2) :
    colNames t2 = colNames t ∧ (∀ c2, (getCol t2 c2).length = (getCol t c2).length) ∧
      ∀ c2, c2 ≠ c → getCol t2 c2 = getCol t c2 := by
  have hset : ∀ newcol : List Val, newcol.length = (getCol t c).length →
      colNames (setCol t c newcol) = colNames t ∧
      (∀ c2, (getCol (setCol t c newcol) c2).length = (getCol t c2).length) ∧
      ∀ c2, c2 ≠ c → getCol (setCol t c newcol) c2 = getCol t c2 := by
    intro newcol hlen
    refine ⟨colNames_setCol t c newcol, fun c2 => ?_, fun c2 h2 => getCol_setCol_ne h2⟩
    by_cases hc2 : c2 = c
    · subst hc2
      rw [getCol_setCol_self]
      by_cases hm : c2 ∈ colNames t
      · rw [if_pos hm, hlen]
      · rw [if_neg hm, getCol_eq_nil_of_not_mem hm]
    · rw [getCol_setCol_ne hc2]
  unfold transformColumn at h
  split at h
  · cases hn : anonymizeNumerical k nm bc ((getCol t c).map toRat) with
    | error e =>
      rw [hn] at h
      exact absurd (show Except.error e = Except.ok t2 from h) (by simp)
    | ok newcol =>
      rw [hn] at h
      have h3 := Except.ok.inj (show Except.ok (setCol t c newcol) = Except.ok t2 from h)
      subst h3
      exact hset newcol (by rw [anonymizeNumerical_length hn]; simp)
  · cases hn : anonymizeCategorical k cm (getCol t c) with
    | error e =>
      rw [hn] at h
      exact absurd (show Except.error e = Except.ok t2 from h) (by simp)
    | ok newcol =>
      rw [hn] at h
      have h3 := Except.ok.inj (show Except.ok (setCol t c newcol) = Except.ok t2 from h)
      subst h3
      exact hset newcol (anonymizeCategorical_length hn)

lemma foldl_transform_shape {k : Nat} {cm nm : String} {bc : Nat} :
    ∀ (qs : List String) (t t2 : Table),
      qs.foldlM (transformColumn k cm nm bc) t = .ok t2 →
      colNames t2 = colNames t ∧ (∀ c, (getCol t2 c).length = (getCol t c).length) ∧
        ∀ c, c ∉ qs → getCol t2 c = getCol t c := by
  intro qs
  induction qs with
  | nil =>
    intro t t2 h
    have h3 := Except.ok.inj (show Except.ok t = Except.ok t2 from h)
    subst h3
    exact ⟨rfl, fun _ => rfl, fun _ _ => rfl⟩
  | cons q qs ih =>
    intro t t2 h
    rw [List.foldlM_cons] at h
    cases h1 : transformColumn k cm nm bc t q with
    | error e =>
      rw [h1] at h
      exact absurd (show Except.error e = Except.ok t2 from h) (by simp)
    | ok t1 =>
      rw [h1] at h
      replace h : qs.foldlM (transformColumn k cm nm bc) t1 = .ok t2 := h
      obtain ⟨hn1, hl1, hg1⟩ := transformColumn_shape h1
      obtain ⟨hn2, hl2, hg2⟩ := ih t1 t2 h
      refine ⟨hn2.trans hn1, fun c => (hl2 c).trans (hl1 c), fun c hc => ?_⟩
      rw [hg2 c (fun hm => hc (List.mem_cons_of_mem _ hm)),
        hg1 c (fun he => hc (he ▸ List.mem_cons_self _ _))]

lemma anonymize_ok_cases {k : Nat} {t : Table} {qis : List String} {cm nm : String}
    {bc : Nat} {out : Table} (h : anonymize k t qis cm nm bc = .ok out) :
    (qis.all fun c => (colNames t).contains c) = true ∧
    ∃ t2, qis.foldlM (transformColumn k cm nm bc) t = .ok t2 ∧
      ((verifyKAnonymity k t2 qis = true ∧ out = t2) ∨
       (verifyKAnonymity k t2 qis = false ∧ out = applySuppression k t2 qis)) := by
  unfold anonymize at h
  split at h
  · exact absurd h (by simp)
  · rename_i hval
    rw [Bool.not_eq_true', Bool.not_eq_false] at hval
    refine ⟨hval, ?_⟩
    cases hf : qis.foldlM (transformColumn k cm nm bc) t with
    | error e =>
      rw [hf] at h
      exact absurd (show Except.error e = Except.ok out from h) (by simp)
    | ok t2 =>
      rw [hf] at h
      replace h : (if verifyKAnonymity k t2 qis then pure t2
          else pure (applySuppression k t2 qis) : Except PyError Table) = .ok out := h
      refine ⟨t2, rfl, ?_⟩
      by_cases hv : verifyKAnonymity k t2 qis
      · rw [if_pos hv] at h
        exact Or.inl ⟨hv, (Except.ok.inj (show Except.ok t2 = Except.ok out from h)).symm⟩
      · rw [if_neg hv] at h
        exact Or.inr ⟨Bool.not_eq_true _ ▸ hv,
          (Except.ok.inj (show Except.ok (applySuppression k t2 qis) = Except.ok out from h)).symm⟩

/- ### Claim C1 -/

/-- C1 (corrected): what anonymize actually guarantees.  For every k of
at least 2, every table and nonempty quasi-identifier list, when
anonymize succeeds, every row of the output whose quasi-identifier
tuple is fully non-null lies in an equivalence class of size at least
k.  Rows with a null marker in some quasi-identifier column are
excluded from the pandas grouping and carry no guarantee (see the
counterexample). -/
theorem anonymize_nonnull_tuples_ge_k (k : Nat) (hk : 2 ≤ k) (t : Table)
    (qis : List String) (cm nm : String) (bc : Nat) (out : Table)
    (hq : qis ≠ []) (hout : anonymize k t qis cm nm bc = .ok out) :
    ∀ i < nRows out, tupleNonNull (tupleAt out qis i) = true →
      k ≤ (tuples out qis).count (tupleAt out qis i) := by
  intro i hi hnn
  obtain ⟨hval, t2, hfold, hcase⟩ := anonymize_ok_cases hout
  rcases hcase with ⟨hv, rfl⟩ | ⟨hv, rfl⟩
  · obtain ⟨hne, hall⟩ := (verify_iff k out qis).mp hv
    have hmem : tupleAt out qis i ∈ nonNullCombos out qis :=
      List.mem_filter.mpr ⟨List.mem_map_of_mem _ (List.mem_range.mpr hi), hnn⟩
    have h2 := hall _ hmem
    rwa [count_nonNullCombos hnn] at h2
  · exact suppression_nonnull_count k t2 qis hq hi hnn

def cexTableC1 : Table :=
  [("zip", [Val.str "A", Val.str "A", Val.str "B"]),
   ("city", [Val.str "X", Val.str "Y", Val.str "Y"])]

def cexOutC1 : Table :=
  [("zip", [Val.str "A", Val.null, Val.null]),
   ("city", [Val.null, Val.null, Val.str "Y"])]

/-- C1 counterexample: with two quasi-identifier columns and the
suppression method, the returned table contains the row (A, null),
whose tuple has multiplicity 1 < 2 but whose zip column is not null:
neither disjunct of the claimed property holds. -/
theorem anonymize_partial_null_row_cex :
    anonymize 2 cexTableC1 ["zip", "city"] "suppression" "binning" 5 = .ok cexOutC1 ∧
    ¬ claimC1Holds 2 cexOutC1 ["zip", "city"] :=
  ⟨by decide, by decide⟩

def witTableC1 : Table :=
  [("zip", [Val.str "A", Val.str "A", Val.str "B", Val.str "B", Val.str "B", Val.str "C"])]

def witOutC1 : Table :=
  [("zip", [Val.str "A", Val.str "A", Val.str "B", Val.str "B", Val.str "B", Val.null])]

theorem anonymize_nonnull_tuples_ge_k_witness :
    2 ≤ 2 ∧ (["zip"] : List String) ≠ [] ∧
    anonymize 2 witTableC1 ["zip"] "suppression" "binning" 5 = .ok witOutC1 ∧
    (∀ i < nRows witOutC1, tupleNonNull (tupleAt witOutC1 ["zip"] i) = true →
      2 ≤ (tuples witOutC1 ["zip"]).count (tupleAt witOutC1 ["zip"] i)) :=
  ⟨by decide, by decide, by decide,
    anonymize_nonnull_tuples_ge_k 2 (by decide) witTableC1 ["zip"] "suppression" "binning" 5
      witOutC1 (by decide) (by decide)⟩

/- ### Claim C2 -/

/-- C2 (corrected): _verify_k_anonymity returns true iff there is at
least one row whose quasi-identifier tuple is fully non-null and every
such tuple has multiplicity at least k among the row tuples; rows with
a null in any quasi-identifier column form no group (pandas groupby
dropna), and a table with zero rows yields false, not true, because the
min of an empty size series is NaN and NaN >= k is False. -/
theorem verify_k_anonymity_char (k : Nat) (t : Table) (qis : List String) :
    (verifyKAnonymity k t qis = true ↔
      ((∃ tu ∈ tuples t qis, tupleNonNull tu = true) ∧
       ∀ tu ∈ tuples t qis, tupleNonNull tu = true → k ≤ (tuples t qis).count tu)) ∧
    (nRows t = 0 → verifyKAnonymity k t qis = false) := by
  constructor
  · rw [verify_iff]
    constructor
    · rintro ⟨hne, hall⟩
      constructor
      · rcases List.exists_mem_of_ne_nil _ hne with ⟨tu, htu⟩
        exact ⟨tu, (List.mem_filter.mp htu).1, (List.mem_filter.mp htu).2⟩
      · intro tu htu hnn
        have := hall tu (List.mem_filter.mpr ⟨htu, hnn⟩)
        rwa [count_nonNullCombos hnn] at this
    · rintro ⟨⟨tu, htu, hnn⟩, hall⟩
      constructor
      · intro he
        have hm : tu ∈ nonNullCombos t qis := List.mem_filter.mpr ⟨htu, hnn⟩
        rw [he] at hm
        exact absurd hm (List.not_mem_nil tu)
      · intro tu2 htu2
        have h1 := (List.mem_filter.mp htu2).1
        have h2 := (List.mem_filter.mp htu2).2
        rw [count_nonNullCombos h2]
        exact hall tu2 h1 h2
  · intro h0
    have htup : tuples t qis = [] := by
      unfold tuples
      rw [h0]
      rfl
    unfold verifyKAnonymity combinationSizes nonNullCombos
    rw [htup]
    rfl

def cexTableC2 : Table :=
  [("zip", [Val.str "A", Val.str "A", Val.str "B", Val.str "B", Val.str "B", Val.null])]

/-- C2 counterexample: on the spec scenario table [A, A, B, B, B, null]
with k = 2 the source verifier returns true (the null row is dropped
from the grouping), while the claimed grouping (null tuples forming
groups like any other) has a group of size 1 and demands false; and on
a zero-row table the source verifier returns false while the claim
demands true. -/
theorem verify_null_groups_cex :
    verifyKAnonymity 2 cexTableC2 ["zip"] = true ∧
    specVerify 2 cexTableC2 ["zip"] = false ∧
    verifyKAnonymity 2 [("zip", ([] : List Val))] ["zip"] = false ∧
    specVerify 2 [("zip", ([] : List Val))] ["zip"] = true :=
  ⟨by decide, by decide, by decide, by decide⟩

theorem verify_k_anonymity_char_witness :
    nRows ([("zip", ([] : List Val))] : Table) = 0 ∧
    verifyKAnonymity 2 [("zip", ([] : List Val))] ["zip"] = false :=
  ⟨by decide, (verify_k_anonymity_char 2 [("zip", ([] : List Val))] ["zip"]).2 (by decide)⟩

/- ### Claim C7 -/

/-- C7 (confirmed): anonymize is modelled as a pure function (the
source copies the DataFrame before editing, so the input is never
mutated); on success the output has the same column names in the same
order, the same row count and the same length for every column, and
every column not named in the quasi-identifier list is unchanged.  On
error no table is returned at all. -/
theorem anonymize_frame_spec (k : Nat) (t : Table) (qis : List String)
    (cm nm : String) (bc : Nat) (out : Table)
    (hout : anonymize k t qis cm nm bc = .ok out) :
    colNames out = colNames t ∧ nRows out = nRows t ∧
    (∀ c, (getCol out c).length = (getCol t c).length) ∧
    (∀ c, c ∉ qis → getCol out c = getCol t c) := by
  obtain ⟨hval, t2, hfold, hcase⟩ := anonymize_ok_cases hout
  obtain ⟨hn, hl, hg⟩ := foldl_transform_shape qis t t2 hfold
  have frame2 : colNames out = colNames t2 ∧
      (∀ c, (getCol out c).length = (getCol t2 c).length) ∧
      (∀ c, c ∉ qis → getCol out c = getCol t2 c) := by
    rcases hcase with ⟨_, rfl⟩ | ⟨_, rfl⟩
    · exact ⟨rfl, fun _ => rfl, fun _ _ => rfl⟩
    · rw [applySuppression_eq]
      refine ⟨colNames_suppressWith _ _ _, fun c => ?_, fun c hc => ?_⟩
      · rw [getCol_suppressWith]
        by_cases hcq : c ∈ qis
        · rw [if_pos hcq]
          exact maskCol_length _ _ 0
        · rw [if_neg hcq]
      · rw [getCol_suppressWith, if_neg hc]
  have hnames : colNames out = colNames t := frame2.1.trans hn
  refine ⟨hnames, ?_, fun c => (frame2.2.1 c).trans (hl c),
    fun c hc => (frame2.2.2 c hc).trans (hg c hc)⟩
  rw [nRows_eq_head_len out, nRows_eq_head_len t, hnames]
  exact (frame2.2.1 _).trans (hl _)

theorem anonymize_frame_spec_witness :
    anonymize 2 witTableC1 ["zip"] "suppression" "binning" 5 = .ok witOutC1 ∧
    (colNames witOutC1 = colNames witTableC1 ∧ nRows witOutC1 = nRows witTableC1 ∧
     (∀ c, (getCol witOutC1 c).length = (getCol witTableC1 c).length) ∧
     (∀ c, c ∉ (["zip"] : List String) → getCol witOutC1 c = getCol witTableC1 c)) :=
  ⟨by decide,
    anonymize_frame_spec 2 witTableC1 ["zip"] "suppression" "binning" 5 witOutC1 (by decide)⟩

/- ### Claim C3 -/

lemma count_inst_bridge (l : List (List Val)) (a : List Val) :
    @List.count (List Val) List.instBEq a l =
    @List.count (List Val) instBEqOfDecidableEq a l := by
  rw [@List.count_eq_countP (List Val) List.instBEq,
    @List.count_eq_countP (List Val) instBEqOfDecidableEq]
  refine List.countP_congr fun x hx => ?_
  simp only [beq_iff_eq]

lemma combinationSizes_sum (t : Table) (qis : List String) :
    (combinationSizes t qis).sum = (tuples t qis).countP tupleNonNull := by
  have h1 := List.sum_map_count_dedup_eq_length (nonNullCombos t qis)
  have h2 : combinationSizes t qis =
      List.map (fun x => @List.count (List Val) instBEqOfDecidableEq x (nonNullCombos t qis))
        (nonNullCombos t qis).dedup :=
    List.map_congr_left fun tu _ => count_inst_bridge (nonNullCombos t qis) tu
  rw [h2, h1]
  unfold nonNullCombos
  rw [List.countP_eq_length_filter]

lemma ecCount_eq (orig t : Table) (qis : List String) :
    (evaluateInformationLoss orig t qis).ecCount = (combinationSizes t qis).length := rfl

lemma verify_perm_invariant (k : Nat) (qis : List String) {a b : Table}
    (hab : (nonNullCombos a qis).Perm (nonNullCombos b qis))
    (hv : verifyKAnonymity k a qis = true) : verifyKAnonymity k b qis = true := by
  obtain ⟨hne, hall⟩ := (verify_iff k a qis).mp hv
  refine (verify_iff k b qis).mpr ⟨?_, ?_⟩
  · intro he
    rw [he] at hab
    exact hne hab.eq_nil
  · intro tu htu
    have hce := hab.count_eq tu
    rw [← count_inst_bridge, ← count_inst_bridge] at hce
    rw [← hce]
    exact hall tu (hab.mem_iff.mpr htu)

/-- C3 (confirmed): a row with a null marker in some quasi-identifier
column is invisible to the groupings.  The verification result depends
only on the multiset of fully non-null tuples; the suppression repair
leaves every null-containing row unchanged in every column; the group
sizes sum exactly to the number of fully non-null rows (so null rows
contribute to no group); and the equivalence-class count reported by
evaluate_information_loss counts only distinct fully non-null
tuples. -/
theorem null_rows_excluded_grouping (k : Nat) (t t2 : Table) (qis : List String)
    (i : Nat) (c : String)
    (hperm : (nonNullCombos t qis).Perm (nonNullCombos t2 qis))
    (hi : i < nRows t) (hnull : tupleNonNull (tupleAt t qis i) = false) :
    verifyKAnonymity k t qis = verifyKAnonymity k t2 qis ∧
    getValAt (applySuppression k t qis) c i = getValAt t c i ∧
    (combinationSizes t qis).sum = (tuples t qis).countP tupleNonNull ∧
    ∀ orig : Table, (evaluateInformationLoss orig t qis).ecCount =
      ((tuples t qis).filter tupleNonNull).toFinset.card := by
  refine ⟨?_, ?_, combinationSizes_sum t qis, ?_⟩
  · cases hv : verifyKAnonymity k t qis with
    | true => exact (verify_perm_invariant k qis hperm hv).symm
    | false =>
      cases hv2 : verifyKAnonymity k t2 qis with
      | true =>
        have hcontra := verify_perm_invariant k qis hperm.symm hv2
        rw [hv] at hcontra
        exact absurd hcontra (by simp)
      | false => rfl
  · rw [applySuppression_eq]
    by_cases hc : c ∈ qis
    · rw [getValAt_suppressWith hc]
      have hmask : suppressMask k t qis i = false := by
        rw [Bool.eq_false_iff]
        intro hm
        unfold suppressMask at hm
        rw [List.any_eq_true] at hm
        obtain ⟨tu, htu, hpe⟩ := hm
        rw [pyRowEq_false_of_null hnull] at hpe
        exact absurd hpe (by simp)
      rw [hmask]
      rfl
    · unfold getValAt
      rw [getCol_suppressWith, if_neg hc]
  · intro orig
    rw [ecCount_eq, List.card_toFinset]
    unfold combinationSizes nonNullCombos
    rw [List.length_map]

def witTableC3 : Table := [("zip", [Val.str "A", Val.str "A", Val.null])]

def witTableC3b : Table := [("zip", [Val.str "A", Val.str "A"])]

theorem null_rows_excluded_grouping_witness :
    (nonNullCombos witTableC3 ["zip"]).Perm (nonNullCombos witTableC3b ["zip"]) ∧
    2 < nRows witTableC3 ∧ tupleNonNull (tupleAt witTableC3 ["zip"] 2) = false ∧
    (verifyKAnonymity 2 witTableC3 ["zip"] = verifyKAnonymity 2 witTableC3b ["zip"] ∧
     getValAt (applySuppression 2 witTableC3 ["zip"]) "zip" 2 = getValAt witTableC3 "zip" 2 ∧
     (combinationSizes witTableC3 ["zip"]).sum = (tuples witTableC3 ["zip"]).countP tupleNonNull ∧
     ∀ orig : Table, (evaluateInformationLoss orig witTableC3 ["zip"]).ecCount =
       ((tuples witTableC3 ["zip"]).filter tupleNonNull).toFinset.card) :=
  ⟨by decide, by decide, by decide,
    null_rows_excluded_grouping 2 witTableC3 witTableC3b ["zip"] 2 "zip"
      (by decide) (by decide) (by decide)⟩

/- ### Claim C8 -/

/-- C8 (corrected): when some quasi-identifier name is missing from the
table columns, anonymize raises a ValueError, but the error carries
only the fixed message "All quasi-identifiers must be columns in the
DataFrame": the list of missing names is only written to the log, not
attached to the raised error (see the counterexample, where two calls
with different missing name lists produce identical errors).  No
column of the input is mutated (the embedding is a pure function and
nothing is returned). -/
theorem anonymize_missing_columns_error (k : Nat) (t : Table) (qis : List String)
    (cm nm : String) (bc : Nat) (c : String) (hc : c ∈ qis) (hmiss : c ∉ colNames t) :
    anonymize k t qis cm nm bc =
      .error (.valueError "All quasi-identifiers must be columns in the DataFrame") := by
  have hall : (qis.all fun c2 => (colNames t).contains c2) = false := by
    rw [Bool.eq_false_iff]
    intro htrue
    rw [List.all_eq_true] at htrue
    have hcont := htrue c hc
    exact hmiss (by simpa using hcont)
  unfold anonymize
  rw [hall]
  rfl

def cexTableC8 : Table := [("a", [Val.str "u"])]

/-- C8 counterexample: the error raised for missing quasi-identifier
["x"] is identical to the one raised for missing ["y", "z"], so the
raised error cannot carry the list of missing names. -/
theorem anonymize_missing_columns_cex :
    anonymize 2 cexTableC8 ["x"] "generalization" "binning" 5 =
      .error (.valueError "All quasi-identifiers must be columns in the DataFrame") ∧
    anonymize 2 cexTableC8 ["y", "z"] "generalization" "binning" 5 =
      .error (.valueError "All quasi-identifiers must be columns in the DataFrame") ∧
    anonymize 2 cexTableC8 ["x"] "generalization" "binning" 5 =
      anonymize 2 cexTableC8 ["y", "z"] "generalization" "binning" 5 :=
  ⟨by decide, by decide, by decide⟩

theorem anonymize_missing_columns_error_witness :
    ("x" ∈ (["x"] : List String)) ∧ "x" ∉ colNames cexTableC8 ∧
    anonymize 2 cexTableC8 ["x"] "generalization" "binning" 5 =
      .error (.valueError "All quasi-identifiers must be columns in the DataFrame") :=
  ⟨by decide, by decide,
    anonymize_missing_columns_error 2 cexTableC8 ["x"] "generalization" "binning" 5 "x"
      (by decide) (by decide)⟩

/- ### Claim C9 -/

/-- C9 (confirmed): KAnonymity.__init__ rejects every argument that is
not an int and every int below 2 (in particular 1, 0 and -5) with the
fixed ValueError, and accepts every int of at least 2, storing it
unchanged. -/
theorem kanonymity_init_spec (i j : Int) (h2 : 2 ≤ i) (hj : j < 2) :
    KAnonymity.init (PyKArg.int i) = .ok i ∧
    KAnonymity.init (PyKArg.int j) =
      .error (.valueError "k must be an integer greater than or equal to 2") ∧
    KAnonymity.init (PyKArg.int 1) =
      .error (.valueError "k must be an integer greater than or equal to 2") ∧
    KAnonymity.init (PyKArg.int 0) =
      .error (.valueError "k must be an integer greater than or equal to 2") ∧
    KAnonymity.init (PyKArg.int (-5)) =
      .error (.valueError "k must be an integer greater than or equal to 2") ∧
    KAnonymity.init PyKArg.other =
      .error (.valueError "k must be an integer greater than or equal to 2") := by
  refine ⟨?_, ?_, by decide, by decide, by decide, rfl⟩
  · simp only [KAnonymity.init]
    rw [if_neg (by omega)]
  · simp only [KAnonymity.init]
    rw [if_pos hj]

theorem kanonymity_init_spec_witness :
    (2 ≤ (5 : Int)) ∧ ((1 : Int) < 2) ∧
    (KAnonymity.init (PyKArg.int 5) = .ok 5 ∧
     KAnonymity.init (PyKArg.int 1) =
       .error (.valueError "k must be an integer greater than or equal to 2") ∧
     KAnonymity.init (PyKArg.int 1) =
       .error (.valueError "k must be an integer greater than or equal to 2") ∧
     KAnonymity.init (PyKArg.int 0) =
       .error (.valueError "k must be an integer greater than or equal to 2") ∧
     KAnonymity.init (PyKArg.int (-5)) =
       .error (.valueError "k must be an integer greater than or equal to 2") ∧
     KAnonymity.init PyKArg.other =
       .error (.valueError "k must be an integer greater than or equal to 2")) :=
  ⟨by decide, by decide, kanonymity_init_spec 5 1 (by decide) (by decide)⟩

/- ### Claim C6 -/

lemma getD_map_lt {g : Val → Val} {col : List Val} {i : Nat} (hi : i < col.length)
    (d d2 : Val) : (col.map g).getD i d = g (col.getD i d2) := by
  rw [List.getD_eq_getElem?_getD, List.getD_eq_getElem?_getD, List.getElem?_map,
    List.getElem?_eq_getElem hi]
  rfl

/-- C6 (confirmed): _anonymize_categorical counts occurrences of each
distinct value; under generalization every occurrence of a value with
count below k becomes the label Other and under suppression it becomes
a null marker, while positions whose value has count at least k are
unchanged; consequently a value v with count below k that is neither
the label Other nor null is absent from both outputs. -/
theorem categorical_transform_spec (k : Nat) (col : List Val) (i : Nat) (v : Val)
    (hi : i < col.length) (hv : col.count v < k)
    (hvO : v ≠ Val.str "Other") (hvN : v ≠ Val.null) :
    ∃ outG outS : List Val,
      anonymizeCategorical k "generalization" col = .ok outG ∧
      anonymizeCategorical k "suppression" col = .ok outS ∧
      outG.length = col.length ∧ outS.length = col.length ∧
      (col.count (col.getD i Val.null) < k →
        outG.getD i Val.null = Val.str "Other" ∧ outS.getD i Val.null = Val.null) ∧
      (k ≤ col.count (col.getD i Val.null) →
        outG.getD i Val.null = col.getD i Val.null ∧
        outS.getD i Val.null = col.getD i Val.null) ∧
      v ∉ outG ∧ v ∉ outS := by
  by_cases hP : (col.any fun x => col.count x < k) = true
  · refine ⟨col.map fun x => if col.count x < k then Val.str "Other" else x,
      col.map fun x => if col.count x < k then Val.null else x,
      by simp [anonymizeCategorical, hP], by simp [anonymizeCategorical, hP],
      by simp, by simp, ?_, ?_, ?_, ?_⟩
    · intro hrare
      rw [getD_map_lt hi Val.null Val.null, getD_map_lt hi Val.null Val.null,
        if_pos hrare, if_pos hrare]
      exact ⟨rfl, rfl⟩
    · intro hfreq
      rw [getD_map_lt hi Val.null Val.null, getD_map_lt hi Val.null Val.null,
        if_neg (by omega), if_neg (by omega)]
      exact ⟨rfl, rfl⟩
    · intro hmem
      obtain ⟨x, hx, hgx⟩ := List.mem_map.mp hmem
      by_cases hxr : col.count x < k
      · rw [if_pos hxr] at hgx
        exact hvO hgx.symm
      · rw [if_neg hxr] at hgx
        subst hgx
        omega
    · intro hmem
      obtain ⟨x, hx, hgx⟩ := List.mem_map.mp hmem
      by_cases hxr : col.count x < k
      · rw [if_pos hxr] at hgx
        exact hvN hgx.symm
      · rw [if_neg hxr] at hgx
        subst hgx
        omega
  · have hfreqall : ∀ x ∈ col, k ≤ col.count x := by
      intro x hx
      by_contra hlt
      push_neg at hlt
      exact hP (List.any_eq_true.mpr ⟨x, hx, by simpa using hlt⟩)
    have hP2 : (col.any fun x => col.count x < k) = false := Bool.not_eq_true _ ▸ hP
    refine ⟨col, col,
      by simp [anonymizeCategorical, hP2], by simp [anonymizeCategorical, hP2],
      rfl, rfl, ?_, fun _ => ⟨rfl, rfl⟩, ?_, ?_⟩
    · intro hrare
      have hmem : col.getD i Val.null ∈ col := by
        rw [List.getD_eq_getElem?_getD, List.getElem?_eq_getElem hi]
        exact List.getElem_mem hi
      exact absurd (hfreqall _ hmem) (by omega)
    · intro hmem
      exact absurd (hfreqall v hmem) (by omega)
    · intro hmem
      exact absurd (hfreqall v hmem) (by omega)

def witColC6 : List Val := [Val.str "a", Val.str "a", Val.str "b"]

theorem categorical_transform_spec_witness :
    2 < witColC6.length ∧ witColC6.count (Val.str "b") < 2 ∧
    Val.str "b" ≠ Val.str "Other" ∧ Val.str "b" ≠ Val.null ∧
    (∃ outG outS : List Val,
      anonymizeCategorical 2 "generalization" witColC6 = .ok outG ∧
      anonymizeCategorical 2 "suppression" witColC6 = .ok outS ∧
      outG.length = witColC6.length ∧ outS.length = witColC6.length ∧
      (witColC6.count (witColC6.getD 2 Val.null) < 2 →
        outG.getD 2 Val.null = Val.str "Other" ∧ outS.getD 2 Val.null = Val.null) ∧
      (2 ≤ witColC6.count (witColC6.getD 2 Val.null) →
        outG.getD 2 Val.null = witColC6.getD 2 Val.null ∧
        outS.getD 2 Val.null = witColC6.getD 2 Val.null) ∧
      Val.str "b" ∉ outG ∧ Val.str "b" ∉ outS) :=
  ⟨by decide, by decide, by decide, by decide,
    categorical_transform_spec 2 witColC6 2 (Val.str "b")
      (by decide) (by decide) (by decide) (by decide)⟩

/- ### Claim C10 -/

lemma suppressionRates_eq (orig anon : Table) (qis : List String) :
    (evaluateInformationLoss orig anon qis).suppressionRates =
      qis.map fun c =>
        (c, ((getCol anon c).countP isNull : Rat) / (nRows anon : Rat) * 100) := rfl

lemma overallRate_eq (orig anon : Table) (qis : List String) :
    (evaluateInformationLoss orig anon qis).overallSuppressionRate =
      (((qis.map fun c => (getCol anon c).countP isNull).sum : Nat) : Rat) /
        ((nRows anon : Rat) * (qis.length : Rat)) * 100 := rfl

lemma avgEcSize_eq (orig anon : Table) (qis : List String) :
    (evaluateInformationLoss orig anon qis).avgEcSize =
      (((combinationSizes anon qis).sum : Nat) : Rat) /
        (((combinationSizes anon qis).length : Nat) : Rat) := rfl

lemma avgGeneralization_eq (orig anon : Table) (qis : List String) :
    (evaluateInformationLoss orig anon qis).avgGeneralization =
      (qis.filter fun c =>
          isNumericCol (getCol orig c) && !isNumericCol (getCol anon c)).map
        fun c =>
          (c, ((numsOf (getCol orig c)).max?.getD 0 -
               (numsOf (getCol orig c)).min?.getD 0) /
              ((((getCol anon c).filter (fun v => !isNull v)).dedup.length : Nat) : Rat)) := rfl

/-- C10 (corrected): evaluate_information_loss mutates nothing (pure
function in the embedding) and returns: per quasi-identifier column the
suppression rate nulls * 100 / rows; the overall rate with denominator
rows * number of quasi-identifier columns; per originally numeric
column that became non-numeric the ratio (max - min) / distinct
non-null anonymized values; and equivalence-class statistics computed
over the fully non-null anonymized tuples ONLY - tuples containing a
null marker are dropped by the pandas grouping and counted in no group,
contrary to the claim (see the counterexample); the average class size
times the class count equals the number of fully non-null rows. -/
theorem evaluate_information_loss_spec (orig anon : Table) (qis : List String)
    (hrows : nRows orig = nRows anon) (hn : 0 < nRows anon) (hq : qis ≠ []) :
    (∀ c ∈ qis,
      (c, ((getCol anon c).countP isNull : Rat) * 100 / (nRows anon : Rat)) ∈
        (evaluateInformationLoss orig anon qis).suppressionRates) ∧
    (evaluateInformationLoss orig anon qis).overallSuppressionRate *
        ((nRows anon : Rat) * (qis.length : Rat)) =
      (((qis.map fun c => (getCol anon c).countP isNull).sum : Nat) : Rat) * 100 ∧
    (evaluateInformationLoss orig anon qis).ecCount =
      ((tuples anon qis).filter tupleNonNull).toFinset.card ∧
    ((evaluateInformationLoss orig anon qis).ecCount ≠ 0 →
      (evaluateInformationLoss orig anon qis).avgEcSize *
          (((evaluateInformationLoss orig anon qis).ecCount : Nat) : Rat) =
        (((tuples anon qis).countP tupleNonNull : Nat) : Rat)) ∧
    (∀ c ∈ qis, isNumericCol (getCol orig c) = true → isNumericCol (getCol anon c) = false →
      (c, ((numsOf (getCol orig c)).max?.getD 0 - (numsOf (getCol orig c)).min?.getD 0) /
          ((((getCol anon c).filter fun v => !isNull v).dedup.length : Nat) : Rat)) ∈
        (evaluateInformationLoss orig anon qis).avgGeneralization) := by
  have hn0 : ((nRows anon : Nat) : Rat) ≠ 0 := by
    rw [Nat.cast_ne_zero]
    omega
  have hm0 : ((qis.length : Nat) : Rat) ≠ 0 := by
    rw [Nat.cast_ne_zero]
    intro h0
    exact hq (List.length_eq_zero.mp h0)
  refine ⟨?_, ?_, ?_, ?_, ?_⟩
  · intro c hc
    rw [suppressionRates_eq]
    refine List.mem_map.mpr ⟨c, hc, ?_⟩
    rw [div_mul_eq_mul_div]
  · rw [overallRate_eq, div_mul_eq_mul_div, div_mul_eq_mul_div,
      mul_div_cancel_right₀ _ (mul_ne_zero hn0 hm0)]
  · rw [ecCount_eq, List.card_toFinset]
    unfold combinationSizes nonNullCombos
    rw [List.length_map]
  · intro hne
    rw [avgEcSize_eq, ecCount_eq] at *
    have hlen0 : (((combinationSizes anon qis).length : Nat) : Rat) ≠ 0 := by
      rw [Nat.cast_ne_zero]
      exact hne
    rw [div_mul_cancel₀ _ hlen0, combinationSizes_sum]
  · intro c hc hnum hcat
    rw [avgGeneralization_eq]
    refine List.mem_map.mpr ⟨c, ?_, rfl⟩
    exact List.mem_filter.mpr ⟨hc, by rw [hnum, hcat]; rfl⟩

def cexOrigC10 : Table := [("zip", [Val.str "A", Val.str "A", Val.str "B"])]

def cexAnonC10 : Table := [("zip", [Val.str "A", Val.str "A", Val.null])]

/-- C10 counterexample: on an anonymized table with the null-containing
tuple (null), the source evaluator reports one equivalence class (only
the group of A), while the claimed grouping that counts null-containing
tuples as groups yields two. -/
theorem evaluate_ec_count_cex :
    (evaluateInformationLoss cexOrigC10 cexAnonC10 ["zip"]).ecCount = 1 ∧
    specEcCount cexAnonC10 ["zip"] = 2 :=
  ⟨by decide, by decide⟩

theorem evaluate_information_loss_spec_witness :
    nRows cexOrigC10 = nRows cexAnonC10 ∧ 0 < nRows cexAnonC10 ∧
    (["zip"] : List String) ≠ [] ∧
    ((∀ c ∈ (["zip"] : List String),
      (c, ((getCol cexAnonC10 c).countP isNull : Rat) * 100 / (nRows cexAnonC10 : Rat)) ∈
        (evaluateInformationLoss cexOrigC10 cexAnonC10 ["zip"]).suppressionRates) ∧
    (evaluateInformationLoss cexOrigC10 cexAnonC10 ["zip"]).overallSuppressionRate *
        ((nRows cexAnonC10 : Rat) * ((["zip"] : List String).length : Rat)) =
      ((((["zip"] : List String).map fun c => (getCol cexAnonC10 c).countP isNull).sum : Nat) : Rat) * 100 ∧
    (evaluateInformationLoss cexOrigC10 cexAnonC10 ["zip"]).ecCount =
      ((tuples cexAnonC10 ["zip"]).filter tupleNonNull).toFinset.card ∧
    ((evaluateInformationLoss cexOrigC10 cexAnonC10 ["zip"]).ecCount ≠ 0 →
      (evaluateInformationLoss cexOrigC10 cexAnonC10 ["zip"]).avgEcSize *
          (((evaluateInformationLoss cexOrigC10 cexAnonC10 ["zip"]).ecCount : Nat) : Rat) =
        (((tuples cexAnonC10 ["zip"]).countP tupleNonNull : Nat) : Rat)) ∧
    (∀ c ∈ (["zip"] : List String),
      isNumericCol (getCol cexOrigC10 c) = true → isNumericCol (getCol cexAnonC10 c) = false →
      (c, ((numsOf (getCol cexOrigC10 c)).max?.getD 0 -
           (numsOf (getCol cexOrigC10 c)).min?.getD 0) /
          ((((getCol cexAnonC10 c).filter fun v => !isNull v).dedup.length : Nat) : Rat)) ∈
        (evaluateInformationLoss cexOrigC10 cexAnonC10 ["zip"]).avgGeneralization)) :=
  ⟨by decide, by decide, by decide,
    evaluate_information_loss_spec cexOrigC10 cexAnonC10 ["zip"]
      (by decide) (by decide) (by decide)⟩

/- ### Claim C4 -/

lemma chunksAux_nil (k fuel : Nat) : chunksAux k fuel [] = [] := by
  cases fuel <;> rfl

lemma ceil_shift {m k : Nat} (hm : 1 ≤ m) (hk : 1 ≤ k) :
    (m + k - 1) / k = (m - 1) / k + 1 := by
  have h : m + k - 1 = (m - 1) + k := by omega
  rw [h, Nat.add_div_right _ (by omega)]

lemma chunksAux_length {k : Nat} (hk : 1 ≤ k) :
    ∀ (fuel : Nat) (l : List Rat), l.length ≤ fuel →
      (chunksAux k fuel l).length = (l.length + k - 1) / k := by
  intro fuel
  induction fuel with
  | zero =>
    intro l hl
    rw [Nat.le_zero, List.length_eq_zero] at hl
    subst hl
    rw [chunksAux_nil]
    show 0 = (([] : List Rat).length + k - 1) / k
    rw [List.length_nil]
    symm
    exact Nat.div_eq_of_lt (by omega)
  | succ fuel ih =>
    intro l hl
    cases l with
    | nil =>
      rw [chunksAux_nil]
      show 0 = (([] : List Rat).length + k - 1) / k
      rw [List.length_nil]
      symm
      exact Nat.div_eq_of_lt (by omega)
    | cons a as =>
      have hl2 : as.length + 1 ≤ fuel + 1 := by
        rw [List.length_cons] at hl
        exact hl
      have hdl : ((a :: as).drop k).length = as.length + 1 - k := by
        rw [List.length_drop, List.length_cons]
      show ((a :: as).take k :: chunksAux k fuel ((a :: as).drop k)).length =
        ((a :: as).length + k - 1) / k
      rw [List.length_cons, List.length_cons, ih _ (by rw [hdl]; omega), hdl]
      rcases le_or_lt (as.length + 1) k with hle | hlt
      · have e1 : as.length + 1 - k = 0 := by omega
        have e2 : (0 + k - 1) / k = 0 := Nat.div_eq_of_lt (by omega)
        have e3 : (as.length + 1 + k - 1) / k = 1 := by
          have e4 : as.length + 1 + k - 1 = as.length + k := by omega
          rw [e4, Nat.add_div_right _ (by omega), Nat.div_eq_of_lt (by omega)]
        rw [e1, e2, e3]
      · have e1 : as.length + 1 - k + k - 1 = as.length := by omega
        have e2 : as.length + 1 + k - 1 = as.length + k := by omega
        rw [e1, e2, Nat.add_div_right _ (by omega)]

lemma chunksAux_getLast {k : Nat} (hk : 1 ≤ k) :
    ∀ (fuel : Nat) (l : List Rat), l ≠ [] → l.length ≤ fuel →
      ((chunksAux k fuel l).getLastD []).length =
        if l.length % k = 0 then k else l.length % k := by
  intro fuel
  induction fuel with
  | zero =>
    intro l hl hlen
    cases l with
    | nil => exact absurd rfl hl
    | cons a as => simp at hlen
  | succ fuel ih =>
    intro l hl hlen
    cases l with
    | nil => exact absurd rfl hl
    | cons a as =>
      show (((a :: as).take k :: chunksAux k fuel ((a :: as).drop k)).getLastD []).length = _
      rcases le_or_lt (as.length + 1) k with hle | hlt
      · have hdrop : (a :: as).drop k = [] :=
          List.drop_eq_nil_of_le (by rw [List.length_cons]; omega)
        rw [hdrop, chunksAux_nil, List.getLastD_cons]
        show ((a :: as).take k).length = _
        rw [List.length_take, List.length_cons, Nat.min_eq_right (by omega)]
        rcases Nat.lt_or_eq_of_le hle with hlt2 | heq
        · rw [Nat.mod_eq_of_lt hlt2, if_neg (by omega)]
        · rw [heq]
          simp [Nat.mod_self]
      · have hdlen : ((a :: as).drop k).length = as.length + 1 - k := by
          rw [List.length_drop, List.length_cons]
        have hdropne : (a :: as).drop k ≠ [] := by
          intro hnil
          rw [← List.length_eq_zero, hdlen] at hnil
          omega
        have hrec := ih ((a :: as).drop k) hdropne (by rw [hdlen]; simp at hlen; omega)
        have hne2 : chunksAux k fuel ((a :: as).drop k) ≠ [] := by
          cases hfu : fuel with
          | zero =>
            exfalso
            have := hdlen
            simp at hlen
            omega
          | succ fuel2 =>
            cases hd : (a :: as).drop k with
            | nil => exact absurd hd hdropne
            | cons b bs => simp [chunksAux]
        rw [List.getLastD_cons]
        have hswap : (chunksAux k fuel ((a :: as).drop k)).getLastD ((a :: as).take k) =
            (chunksAux k fuel ((a :: as).drop k)).getLastD [] := by
          rw [List.getLastD_eq_getLast?, List.getLastD_eq_getLast?]
          cases hgl : (chunksAux k fuel ((a :: as).drop k)).getLast? with
          | none => exact absurd (List.getLast?_eq_none.mp hgl) hne2
          | some g => rfl
        rw [hswap, hrec, hdlen, List.length_cons]
        have hmod : (as.length + 1 - k) % k = (as.length + 1) % k := by
          have h4 : as.length + 1 - k + k = as.length + 1 := by omega
          conv_rhs => rw [← h4]
          rw [Nat.add_mod_right]
        rw [hmod]

lemma chunksAux_flatten {k : Nat} (hk : 1 ≤ k) :
    ∀ (fuel : Nat) (l : List Rat), l.length ≤ fuel → (chunksAux k fuel l).flatten = l := by
  intro fuel
  induction fuel with
  | zero =>
    intro l hlen
    rw [Nat.le_zero, List.length_eq_zero] at hlen
    subst hlen
    rfl
  | succ fuel ih =>
    intro l hlen
    cases l with
    | nil => rw [chunksAux_nil]; rfl
    | cons a as =>
      show ((a :: as).take k :: chunksAux k fuel ((a :: as).drop k)).flatten = a :: as
      rw [List.flatten_cons, ih _ (by rw [List.length_drop]; simp at hlen ⊢; omega),
        List.take_append_drop]

lemma lookup_of_keys_nodup :
    ∀ (l : List (Rat × Rat)) (v m : Rat),
      (l.map Prod.fst).Nodup → (v, m) ∈ l → l.lookup v = some m := by
  intro l
  induction l with
  | nil => intro v m _ hm; simp at hm
  | cons p rest ih =>
    intro v m hnd hm
    rw [List.map_cons, List.nodup_cons] at hnd
    rcases List.mem_cons.mp hm with heq | hmem
    · rw [← heq]
      show List.lookup v ((v, m) :: rest) = some m
      rw [List.lookup_cons]
      simp
    · have hvne : (v == p.1) = false := by
        rw [beq_eq_false_iff_ne]
        intro he
        exact hnd.1 (he ▸ List.mem_map_of_mem Prod.fst hmem)
      have : List.lookup v ((p.1, p.2) :: rest) = List.lookup v rest := by
        rw [List.lookup_cons, hvne]
      rw [show p = (p.1, p.2) from rfl, this]
      exact ih v m hnd.2 hmem

lemma microPairs_keys (k : Nat) (col : List Rat) :
    (microPairs k col).map Prod.fst = (pyChunks k (sortAsc col)).flatten := by
  unfold microPairs
  rw [List.map_flatten, List.map_map]
  have hfun : (List.map Prod.fst ∘ fun g : List Rat => List.map (fun v => (v, pyMean g)) g) =
      fun g => g := by
    funext g
    rw [Function.comp_apply, List.map_map]
    have hid : (Prod.fst ∘ fun v : Rat => (v, pyMean g)) = id := by
      funext v
      rfl
    rw [hid, List.map_id]
  rw [hfun]
  congr 1
  exact List.map_id _

lemma microLookup_eq {k : Nat} (col : List Rat) (hk : 1 ≤ k) (hnd : col.Nodup)
    {g : List Rat} (hg : g ∈ pyChunks k (sortAsc col)) {v : Rat} (hv : v ∈ g) :
    microLookup k col v = pyMean g := by
  have hperm : (sortAsc col).Perm col := List.perm_insertionSort _ col
  have hsortnd : (sortAsc col).Nodup := hperm.nodup_iff.mpr hnd
  have hflat : (pyChunks k (sortAsc col)).flatten = sortAsc col :=
    chunksAux_flatten hk _ _ le_rfl
  have hkeynd : ((microPairs k col).reverse.map Prod.fst).Nodup := by
    rw [List.map_reverse, List.nodup_reverse, microPairs_keys, hflat]
    exact hsortnd
  have hmem : (v, pyMean g) ∈ (microPairs k col).reverse := by
    rw [List.mem_reverse]
    unfold microPairs
    rw [List.mem_flatten]
    exact ⟨g.map fun u => (u, pyMean g), List.mem_map_of_mem _ hg,
      List.mem_map_of_mem _ hv⟩
  unfold microLookup
  rw [lookup_of_keys_nodup _ _ _ hkeynd hmem]
  rfl

/-- C4 (corrected): the microaggregation branch sorts ascending and
partitions into consecutive groups of exactly k values, the final group
holding length mod k values if nonzero else k — exactly as claimed —
but the replacement goes through a value-to-mean dict in which a later
group overwrites the entry of a value already seen, so when equal
values span a group boundary every occurrence of that value receives
the mean of the LAST group containing it (see the counterexample).
When all values are distinct every value is replaced by the mean of its
own group, and the concrete scenario of the claim holds. -/
theorem microaggregation_groups_spec (k : Nat) (col : List Rat)
    (hk : 2 ≤ k) (hnd : col.Nodup) :
    (pyChunks k (sortAsc col)).length = (col.length + k - 1) / k ∧
    (col ≠ [] → ((pyChunks k (sortAsc col)).getLastD []).length =
      if col.length % k = 0 then k else col.length % k) ∧
    (∀ g ∈ pyChunks k (sortAsc col), ∀ v ∈ g, microLookup k col v = pyMean g) ∧
    (microaggregate k col).length = col.length ∧
    microaggregate 3 [21, 22, 23, 58, 59, 60] = [22, 22, 22, 59, 59, 59] := by
  have hk1 : 1 ≤ k := by omega
  have hlen : (sortAsc col).length = col.length := List.length_insertionSort _ col
  refine ⟨?_, ?_, fun g hg v hv => microLookup_eq col hk1 hnd hg hv,
    by simp [microaggregate], by with_unfolding_all decide⟩
  · rw [show pyChunks k (sortAsc col) =
        chunksAux k (sortAsc col).length (sortAsc col) from rfl,
      chunksAux_length hk1 _ _ le_rfl, hlen]
  · intro hne
    have hsne : sortAsc col ≠ [] := by
      intro h
      apply hne
      rw [← List.length_eq_zero, ← hlen, h]
      rfl
    rw [show pyChunks k (sortAsc col) =
        chunksAux k (sortAsc col).length (sortAsc col) from rfl,
      chunksAux_getLast hk1 _ _ hsne le_rfl, hlen]

/-- C4 counterexample: for the column [0, 0, 0, 4] with k = 2 the
sorted groups are [0, 0] (mean 0) and [0, 4] (mean 2); the claim
demands that the two values of the first group become 0, but the code
maps every occurrence of 0 through the dict entry written last, so the
output is [2, 2, 2, 2] — not even a permutation of the claimed group
replacement [0, 0, 2, 2]. -/
theorem microaggregation_tie_cex :
    microaggregate 2 [0, 0, 0, 4] = [2, 2, 2, 2] ∧
    pyChunks 2 (sortAsc [0, 0, 0, 4]) = [[0, 0], [0, 4]] ∧
    pyMean [0, 0] = 0 ∧ pyMean [0, 4] = 2 ∧
    ¬ (microaggregate 2 [0, 0, 0, 4]).Perm
      (((pyChunks 2 (sortAsc [0, 0, 0, 4])).map fun g => g.map fun _ => pyMean g).flatten) :=
  ⟨by with_unfolding_all decide, by with_unfolding_all decide,
    by with_unfolding_all decide, by with_unfolding_all decide,
    by with_unfolding_all decide⟩

theorem microaggregation_groups_spec_witness :
    2 ≤ 3 ∧ ([21, 22, 23, 58, 59, 60] : List Rat).Nodup ∧
    ((pyChunks 3 (sortAsc [21, 22, 23, 58, 59, 60])).length =
      (([21, 22, 23, 58, 59, 60] : List Rat).length + 3 - 1) / 3 ∧
    (([21, 22, 23, 58, 59, 60] : List Rat) ≠ [] →
      ((pyChunks 3 (sortAsc [21, 22, 23, 58, 59, 60])).getLastD []).length =
      if ([21, 22, 23, 58, 59, 60] : List Rat).length % 3 = 0 then 3
      else ([21, 22, 23, 58, 59, 60] : List Rat).length % 3) ∧
    (∀ g ∈ pyChunks 3 (sortAsc [21, 22, 23, 58, 59, 60]), ∀ v ∈ g,
      microLookup 3 [21, 22, 23, 58, 59, 60] v = pyMean g) ∧
    (microaggregate 3 [21, 22, 23, 58, 59, 60]).length =
      ([21, 22, 23, 58, 59, 60] : List Rat).length ∧
    microaggregate 3 [21, 22, 23, 58, 59, 60] = [22, 22, 22, 59, 59, 59]) :=
  ⟨by decide, by with_unfolding_all decide,
    microaggregation_groups_spec 3 [21, 22, 23, 58, 59, 60]
      (by decide) (by with_unfolding_all decide)⟩

/- ### Claim C5 -/

lemma sortAsc_sorted (l : List Rat) : List.Sorted (· ≤ ·) (sortAsc l) :=
  List.sorted_insertionSort _ l

lemma getD_eq_of_lt {s : List Rat} {n : Nat} (h : n < s.length) (d d2 : Rat) :
    s.getD n d = s.getD n d2 := by
  rw [List.getD_eq_getElem?_getD, List.getD_eq_getElem?_getD, List.getElem?_eq_getElem h]
  rfl

lemma sorted_getD_le {s : List Rat} (hs : List.Sorted (· ≤ ·) s) {i j : Nat}
    (hij : i ≤ j) (hj : j < s.length) : s.getD i 0 ≤ s.getD j 0 := by
  have hi : i < s.length := lt_of_le_of_lt hij hj
  rw [List.getD_eq_getElem?_getD, List.getD_eq_getElem?_getD,
    List.getElem?_eq_getElem hi, List.getElem?_eq_getElem hj, Option.getD_some, Option.getD_some]
  rcases Nat.lt_or_eq_of_le hij with hlt | heq
  · exact hs.rel_get_of_lt (show (⟨i, hi⟩ : Fin s.length) < ⟨j, hj⟩ from hlt)
  · subst heq
    exact le_refl _

lemma interpSorted_eq (s : List Rat) (r : Rat) :
    interpSorted s r =
      s.getD (Int.floor r).toNat 0 +
        (r - ((Int.floor r : Int) : Rat)) *
          (s.getD ((Int.floor r).toNat + 1) (s.getD (Int.floor r).toNat 0) -
           s.getD (Int.floor r).toNat 0) := rfl

lemma interpSorted_mono {s : List Rat} (hs : List.Sorted (· ≤ ·) s)
    {r r2 : Rat} (h0 : 0 ≤ r) (hrr : r ≤ r2) (hub : r2 ≤ (s.length : Rat) - 1) :
    interpSorted s r ≤ interpSorted s r2 := by
  have h02 : 0 ≤ r2 := le_trans h0 hrr
  have hlen1 : 1 ≤ s.length := by
    by_contra hcon
    push_neg at hcon
    have h00 : s.length = 0 := by omega
    rw [h00] at hub
    norm_num at hub
    linarith
  have hf0 : (0 : Int) ≤ Int.floor r := Int.floor_nonneg.mpr h0
  have hf02 : (0 : Int) ≤ Int.floor r2 := Int.floor_nonneg.mpr h02
  have hfi : (((Int.floor r).toNat : Int)) = Int.floor r := Int.toNat_of_nonneg hf0
  have hfi2 : (((Int.floor r2).toNat : Int)) = Int.floor r2 := Int.toNat_of_nonneg hf02
  have hfloorle : Int.floor r ≤ Int.floor r2 := Int.floor_le_floor hrr
  have hfub : Int.floor r2 ≤ (s.length : Int) - 1 := by
    have h1 : ((Int.floor r2 : Int) : Rat) ≤ ((((s.length : Int) - 1) : Int) : Rat) := by
      push_cast
      exact le_trans (Int.floor_le r2) hub
    exact_mod_cast h1
  have hi2lt : (Int.floor r2).toNat < s.length := by omega
  have hile : (Int.floor r).toNat ≤ (Int.floor r2).toNat := by omega
  have hilt : (Int.floor r).toNat < s.length := lt_of_le_of_lt hile hi2lt
  have hfr0 : 0 ≤ r - ((Int.floor r : Int) : Rat) := sub_nonneg.mpr (Int.floor_le r)
  have hfr1 : r - ((Int.floor r : Int) : Rat) ≤ 1 := by
    have := Int.lt_floor_add_one r
    linarith
  have hfr02 : 0 ≤ r2 - ((Int.floor r2 : Int) : Rat) := sub_nonneg.mpr (Int.floor_le r2)
  have hilohi : ∀ m : Nat, m < s.length →
      s.getD m 0 ≤ s.getD (m + 1) (s.getD m 0) := by
    intro m hm
    rcases lt_or_ge (m + 1) s.length with hlt | hge
    · rw [getD_eq_of_lt hlt _ 0]
      exact sorted_getD_le hs (Nat.le_succ m) hlt
    · rw [List.getD_eq_default _ _ hge]
  rcases Nat.lt_or_eq_of_le hile with hlt | heq
  · -- strictly later segment
    have hi1lt : (Int.floor r).toNat + 1 < s.length := lt_of_le_of_lt hlt hi2lt
    have step1 : interpSorted s r ≤ s.getD ((Int.floor r).toNat + 1) 0 := by
      rw [interpSorted_eq, getD_eq_of_lt hi1lt _ 0]
      have hd : 0 ≤ s.getD ((Int.floor r).toNat + 1) 0 - s.getD (Int.floor r).toNat 0 :=
        sub_nonneg.mpr (sorted_getD_le hs (Nat.le_succ _) hi1lt)
      nlinarith [mul_le_mul_of_nonneg_right hfr1 hd]
    have step2 : s.getD ((Int.floor r).toNat + 1) 0 ≤ s.getD (Int.floor r2).toNat 0 :=
      sorted_getD_le hs hlt hi2lt
    have step3 : s.getD (Int.floor r2).toNat 0 ≤ interpSorted s r2 := by
      rw [interpSorted_eq]
      have hd : 0 ≤ s.getD ((Int.floor r2).toNat + 1) (s.getD (Int.floor r2).toNat 0) -
          s.getD (Int.floor r2).toNat 0 := sub_nonneg.mpr (hilohi _ hi2lt)
      nlinarith [mul_nonneg hfr02 hd]
    exact le_trans step1 (le_trans step2 step3)
  · -- same segment
    have hfeq : Int.floor r = Int.floor r2 := by omega
    rw [interpSorted_eq, interpSorted_eq, ← hfeq, heq]
    have hd : 0 ≤ s.getD ((Int.floor r2).toNat + 1) (s.getD ((Int.floor r2).toNat) 0) -
        s.getD (Int.floor r2).toNat 0 := sub_nonneg.mpr (hilohi _ hi2lt)
    nlinarith [mul_le_mul_of_nonneg_right (sub_le_sub_right hrr ((Int.floor r : Int) : Rat)) hd]

lemma npPercentile_mono {l : List Rat} (hl : l ≠ []) {p p2 : Rat}
    (hp0 : 0 ≤ p) (hpp : p ≤ p2) (hp100 : p2 ≤ 100) :
    npPercentile l p ≤ npPercentile l p2 := by
  unfold npPercentile
  have hlen1 : 1 ≤ l.length := List.length_pos.mpr hl
  have hm : (0 : Rat) ≤ (l.length : Rat) - 1 := by
    have h1 : (1 : Rat) ≤ (l.length : Rat) := by exact_mod_cast hlen1
    linarith
  have hslen : ((sortAsc l).length : Rat) = (l.length : Rat) := by
    unfold sortAsc
    rw [List.length_insertionSort]
  apply interpSorted_mono (sortAsc_sorted l)
  · exact div_nonneg (mul_nonneg hp0 hm) (by norm_num)
  · have h2 := mul_le_mul_of_nonneg_right hpp hm
    linarith
  · rw [hslen]
    have h2 := mul_le_mul_of_nonneg_right hp100 hm
    linarith

lemma binEdges_length (n : Nat) (col : List Rat) : (binEdges n col).length = n + 1 := by
  unfold binEdges
  rw [List.length_map, List.length_range]

lemma binEdges_chain {n : Nat} {col : List Rat} (hn : 1 ≤ n) (hc : col ≠ []) :
    List.Chain' (· ≤ ·) (binEdges n col) := by
  unfold binEdges
  rw [List.chain'_map (fun j : Nat => npPercentile col (100 * (j : Rat) / (n : Rat)))]
  have hr : List.range (n + 1) = List.range (Nat.succ n) := rfl
  rw [hr, List.chain'_range_succ]
  intro m hm
  have hn0 : (0 : Rat) < (n : Rat) := by exact_mod_cast hn
  have hm1 : ((m : Rat) + 1) ≤ (n : Rat) := by exact_mod_cast hm
  apply npPercentile_mono hc
  · exact div_nonneg (mul_nonneg (by norm_num) (Nat.cast_nonneg m)) (le_of_lt hn0)
  · rw [div_le_div_iff_of_pos_right hn0]
    push_cast
    linarith
  · rw [div_le_iff₀ hn0]
    push_cast
    linarith

lemma binLabels_length (edges : List Rat) : (binLabels edges).length = edges.length - 1 := by
  unfold binLabels
  simp

lemma innerEdges_length (edges : List Rat) :
    (innerEdges edges).length = edges.length - 1 - 1 := by
  unfold innerEdges
  rw [List.length_dropLast, List.length_drop]

lemma binIndex_lt {edges : List Rat} (v : Rat) (h : 2 ≤ edges.length) :
    binIndex edges v < edges.length - 1 := by
  unfold binIndex
  have h1 := @List.countP_le_length Rat (fun e => decide (e ≤ v)) (innerEdges edges)
  rw [innerEdges_length] at h1
  omega

lemma binLabels_getD {edges : List Rat} {j : Nat} (hj : j < edges.length - 1) :
    (binLabels edges).getD j "" =
      fmtTwo (edges.getD j 0) ++ "-" ++ fmtTwo (edges.getD (j + 1) 0) := by
  unfold binLabels
  rw [List.getD_eq_getElem?_getD, List.getElem?_map, List.getElem?_range hj]
  rfl

lemma binColumn_getD {n : Nat} {col : List Rat} {i : Nat} (hi : i < col.length) :
    (binColumn n col).getD i "" =
      (binLabels (binEdges n col)).getD (binIndex (binEdges n col) (col.getD i 0)) "" := by
  unfold binColumn
  rw [List.getD_eq_getElem?_getD, List.getElem?_map, List.getElem?_eq_getElem hi,
    Option.map_some', Option.getD_some]
  congr 1
  rw [List.getD_eq_getElem?_getD, List.getElem?_eq_getElem hi, Option.getD_some]

lemma binColumn_card_le (n : Nat) (col : List Rat) (hn : 1 ≤ n) :
    (binColumn n col).toFinset.card ≤ n := by
  have hlab : (binLabels (binEdges n col)).length = n := by
    rw [binLabels_length, binEdges_length]
    omega
  have hsub : (binColumn n col).toFinset ⊆ (binLabels (binEdges n col)).toFinset := by
    intro x hx
    rw [List.mem_toFinset] at hx ⊢
    unfold binColumn at hx
    obtain ⟨v, hv, hxv⟩ := List.mem_map.mp hx
    have hidx : binIndex (binEdges n col) v < (binLabels (binEdges n col)).length := by
      rw [hlab]
      have h2 := @binIndex_lt (binEdges n col) v (by rw [binEdges_length]; omega)
      rw [binEdges_length] at h2
      omega
    rw [← hxv, List.getD_eq_getElem?_getD, List.getElem?_eq_getElem hidx, Option.getD_some]
    exact List.getElem_mem hidx
  calc (binColumn n col).toFinset.card
      ≤ (binLabels (binEdges n col)).toFinset.card := Finset.card_le_card hsub
    _ ≤ (binLabels (binEdges n col)).length := List.toFinset_card_le _
    _ = n := hlab

/-- C5 (corrected): for every bin_count n of at least 2 the binning
transform computes n + 1 quantile-based bin edges which are
non-decreasing, replaces every input value with the single label at its
searchsorted ordinal (an index always below n), the label at position j
being the string low-high built from the two adjacent edges formatted
to two decimal places, and the output has at most n distinct labels;
for bin_count below 2 KBinsDiscretizer rejects n_bins at fit time with
a ValueError, so _anonymize_numerical raises and produces no labels at
all (see the counterexample).  KBinsDiscretizer is modelled from its
documented behaviour (n_bins validation; numpy linear-interpolation
percentiles at linspace(0, 100, n + 1)). -/
theorem binning_spec (n : Nat) (col : List Rat) (hn : 2 ≤ n) (hc : col ≠ []) :
    List.Chain' (· ≤ ·) (binEdges n col) ∧
    (binEdges n col).length = n + 1 ∧
    (binColumn n col).length = col.length ∧
    (∀ i < col.length,
      binIndex (binEdges n col) (col.getD i 0) < n ∧
      (binColumn n col).getD i "" =
        (binLabels (binEdges n col)).getD (binIndex (binEdges n col) (col.getD i 0)) "") ∧
    (∀ j < n, (binLabels (binEdges n col)).getD j "" =
      fmtTwo ((binEdges n col).getD j 0) ++ "-" ++ fmtTwo ((binEdges n col).getD (j + 1) 0)) ∧
    (binColumn n col).toFinset.card ≤ n ∧
    (∀ k : Nat, anonymizeNumerical k "binning" n col = .ok ((binColumn n col).map Val.str)) ∧
    (∀ k m2 : Nat, m2 < 2 → anonymizeNumerical k "binning" m2 col =
      .error (.valueError ("KBinsDiscretizer received an invalid number of bins. Received "
        ++ toString m2 ++ ", expected at least 2."))) := by
  have hn1 : 1 ≤ n := by omega
  refine ⟨binEdges_chain hn1 hc, binEdges_length n col, by unfold binColumn; simp,
    fun i hi => ⟨?_, binColumn_getD hi⟩, fun j hj => ?_, binColumn_card_le n col hn1,
    fun k => ?_, fun k m2 hm2 => ?_⟩
  · have h2 := @binIndex_lt (binEdges n col) (col.getD i 0)
      (by rw [binEdges_length]; omega)
    rw [binEdges_length] at h2
    omega
  · exact binLabels_getD (by rw [binEdges_length]; omega)
  · unfold anonymizeNumerical
    rw [if_pos (by decide), if_neg (by omega)]
  · unfold anonymizeNumerical
    rw [if_pos (by decide), if_pos hm2]

/-- C5 counterexample: at bin_count = 1 the claim demands that every
input value be replaced with a two-decimal range label, but
KBinsDiscretizer validates n_bins at fit time and the binning branch
raises a ValueError instead, producing no labelled column. -/
theorem binning_single_bin_cex :
    anonymizeNumerical 2 "binning" 1 [1, 2, 3, 4] =
      .error (.valueError
        "KBinsDiscretizer received an invalid number of bins. Received 1, expected at least 2.") :=
  by decide

theorem binning_spec_witness :
    2 ≤ 2 ∧ ([1, 2, 3, 4] : List Rat) ≠ [] ∧
    (List.Chain' (· ≤ ·) (binEdges 2 [1, 2, 3, 4]) ∧
    (binEdges 2 [1, 2, 3, 4]).length = 2 + 1 ∧
    (binColumn 2 [1, 2, 3, 4]).length = ([1, 2, 3, 4] : List Rat).length ∧
    (∀ i < ([1, 2, 3, 4] : List Rat).length,
      binIndex (binEdges 2 [1, 2, 3, 4]) (([1, 2, 3, 4] : List Rat).getD i 0) < 2 ∧
      (binColumn 2 [1, 2, 3, 4]).getD i "" =
        (binLabels (binEdges 2 [1, 2, 3, 4])).getD
          (binIndex (binEdges 2 [1, 2, 3, 4]) (([1, 2, 3, 4] : List Rat).getD i 0)) "") ∧
    (∀ j < 2, (binLabels (binEdges 2 [1, 2, 3, 4])).getD j "" =
      fmtTwo ((binEdges 2 [1, 2, 3, 4]).getD j 0) ++ "-" ++
        fmtTwo ((binEdges 2 [1, 2, 3, 4]).getD (j + 1) 0)) ∧
    (binColumn 2 [1, 2, 3, 4]).toFinset.card ≤ 2 ∧
    (∀ k : Nat, anonymizeNumerical k "binning" 2 [1, 2, 3, 4] =
      .ok ((binColumn 2 [1, 2, 3, 4]).map Val.str)) ∧
    (∀ k m2 : Nat, m2 < 2 → anonymizeNumerical k "binning" m2 [1, 2, 3, 4] =
      .error (.valueError ("KBinsDiscretizer received an invalid number of bins. Received "
        ++ toString m2 ++ ", expected at least 2.")))) :=
  ⟨by decide, by decide, binning_spec 2 [1, 2, 3, 4] (by decide) (by decide)⟩
